import Mathlib

set_option autoImplicit false

/-!
Verification of the path-pattern engine of `multicorn/corns/filesystem.py`.

The development shallowly embeds the module: the pattern tokenizer and
parser, the per-segment regex matchers it generates, path derivation via
Python string formatting, the recursive directory walk, and the save and
delete mutators over an explicit filesystem state.
-/

namespace Multicorn

/-- The opening brace character (written via an escape). -/
def obrace : Char := '\x7b'

/-- The closing brace character (written via an escape). -/
def cbrace : Char := '\x7d'

/-- The path separator character. -/
def slashC : Char := '/'

/-- The newline character, relevant because Python regex `.` does not match
it while `$` matches just before a trailing one. -/
def nl : Char := '\n'

/-- Decidable equality for error-or-value results, so that concrete runs of
the embedded functions can be checked by evaluation. -/
instance {ε α : Type} [DecidableEq ε] [DecidableEq α] : DecidableEq (Except ε α) :=
  fun a b =>
    match a, b with
    | .ok x, .ok y =>
        if h : x = y then .isTrue (by rw [h])
        else .isFalse (by intro hc; cases hc; exact h rfl)
    | .error x, .error y =>
        if h : x = y then .isTrue (by rw [h])
        else .isFalse (by intro hc; cases hc; exact h rfl)
    | .ok _, .error _ => .isFalse (by intro hc; cases hc)
    | .error _, .ok _ => .isFalse (by intro hc; cases hc)

/-- Boolean prefix test on character lists: the semantics of Python
str.startswith, as used by the containment assertions. -/
def leadsWith : List Char → List Char → Bool
  | [], _ => true
  | _ :: _, [] => false
  | c :: pre, x :: s => (x = c) && leadsWith pre s

/-- Python str.startswith: the second string is a prefix of the first. -/
def strStarts (s pre : String) : Bool := leadsWith pre.data s.data

/-- Error outcomes, one constructor per distinct Python exception raised in
the module (ValueError / TypeError / KeyError / AssertionError / OSError). -/
inductive Err where
  | singleBrace
  | unmatchedBrace
  | emptyPart
  | invalidProp (name : String)
  | duplicateProp (name : String)
  | slashInValue
  | assertFailed
  | typeError
  | missingKey (name : String)
  | osError
  deriving Repr, DecidableEq

/-- Tokens produced by the pattern tokenizer: a path separator, a property
(field) name, or one literal character. -/
inductive Tok where
  | sep
  | prop (name : String)
  | lit (c : Char)
  deriving Repr, DecidableEq

/-- Embedding of the loop body of `_tokenize_pattern`: `prev` is the
previous raw character (None at the start), the Bool is `in_field`, the
first list is the buffered field name, and the last list is the remaining
input (one character of lookahead is read from its head).  At the end of
input the artificial trailing separator token is emitted, after the check
for an unterminated field. -/
def tokStep : Option Char → Bool → List Char → List Char → Except Err (List Tok)
  | _, inField, _, [] =>
      if inField then .error .unmatchedBrace else .ok [Tok.sep]
  | _, true, buf, c :: rest =>
      if c = cbrace then
        (tokStep (some c) false [] rest).map (fun ts => Tok.prop ⟨buf⟩ :: ts)
      else
        tokStep (some c) true (buf ++ [c]) rest
  | prev, false, buf, c :: rest =>
      if c = slashC then
        (tokStep (some c) false buf rest).map (fun ts => Tok.sep :: ts)
      else if (c = obrace ∨ c = cbrace) ∧ rest.head? = some c then
        tokStep (some c) false buf rest
      else if c = cbrace ∧ prev ≠ some cbrace then
        .error .singleBrace
      else if c = obrace ∧ prev ≠ some obrace then
        tokStep (some c) true [] rest
      else
        (tokStep (some c) false buf rest).map (fun ts => Tok.lit c :: ts)

/-- Embedding of `_tokenize_pattern` on the pattern character list. -/
def tokenizePattern (p : List Char) : Except Err (List Tok) :=
  tokStep none false [] p

/-- One building block of a compiled segment regex: an escaped literal
character, or a named capture group matching `.*`. -/
inductive Atom where
  | lit (c : Char)
  | field (name : String)
  deriving Repr, DecidableEq

/-- Modelled from the spec: `isidentifier` is imported from the package's
`utils` module, which is not part of the given sources.  The spec states
field names must be "unique identifiers (alphanumeric/underscore, not
starting with a digit)". -/
def isIdentChar (c : Char) : Bool := c.isAlphanum || c = '_'

/-- Modelled from the spec: a legal identifier is nonempty, starts with a
letter or underscore, and continues with alphanumerics or underscores. -/
def isidentifier (s : String) : Bool :=
  match s.data with
  | [] => false
  | c :: rest => (c.isAlpha || c = '_') && rest.all isIdentChar

/-- Embedding of the loop of `_parse_pattern`: the first accumulator is the
current segment (`next_re`, as the list of regex atoms it denotes), the
second the finished segments (`path_parts_re`), the third the property
names seen so far (`path_properties`).  A separator with an empty current
segment is the "slash-separated part is empty" error; a property name
failing the identifier check or repeating an earlier name is an error. -/
def parseToks : List Tok → List Atom → List (List Atom) → List String →
    Except Err (List (List Atom) × List String)
  | [], _, segsAcc, propsAcc => .ok (segsAcc, propsAcc)
  | Tok.sep :: toks, cur, segsAcc, propsAcc =>
      if cur = [] then .error .emptyPart
      else parseToks toks [] (segsAcc ++ [cur]) propsAcc
  | Tok.prop n :: toks, cur, segsAcc, propsAcc =>
      if isidentifier n = false then .error (.invalidProp n)
      else if propsAcc.contains n then .error (.duplicateProp n)
      else parseToks toks (cur ++ [Atom.field n]) segsAcc (propsAcc ++ [n])
  | Tok.lit c :: toks, cur, segsAcc, propsAcc =>
      parseToks toks (cur ++ [Atom.lit c]) segsAcc propsAcc

/-- Embedding of `_parse_pattern`: tokenize, then fold the tokens into the
tuple of compiled segment matchers and the tuple of property names. -/
def parsePattern (p : List Char) : Except Err (List (List Atom) × List String) :=
  (tokenizePattern p).bind (fun toks => parseToks toks [] [] [])

/-- A capture list: named group values in group order, as returned by
`match.groupdict().items()` (each name occurs once per segment). -/
abbrev Caps := List (String × String)

/-- Greedy backtracking for one named group `(?P<n>.*)`: candidate capture
lengths are tried longest first; `.` does not match a newline, so any
candidate whose text contains one is skipped.  `rec` matches the rest of
the regex against the rest of the component. -/
def tryLen (n : String) (s : List Char) (rec : List Char → Option Caps) :
    Nat → Option Caps
  | 0 => (rec s).map (fun m => (n, ⟨[]⟩) :: m)
  | k + 1 =>
      if (s.take (k+1)).all (fun c => c ≠ nl) then
        match (rec (s.drop (k+1))).map (fun m => (n, ⟨s.take (k+1)⟩) :: m) with
        | some m => some m
        | none => tryLen n s rec k
      else tryLen n s rec k

/-- Embedding of matching one compiled segment regex, as built by
`_parse_pattern` from `'^%s$' % next_re` and applied with `.match`:
literals match themselves, named groups are greedy `.*` captures, and the
final `$` accepts either the end of the component or a position just
before a single trailing newline (Python `$` semantics). -/
def matchAtoms : List Atom → List Char → Option Caps
  | [], s => if s = [] ∨ s = [nl] then some [] else none
  | Atom.lit _ :: _, [] => none
  | Atom.lit c :: rest, x :: s => if x = c then matchAtoms rest s else none
  | Atom.field n :: rest, s => tryLen n s (fun t => matchAtoms rest t) s.length

/-- Embedding of `Filesystem._match_part`: apply the compiled regex for the
given depth to a component name; a failed match is None, a successful one
is the list of named captures. -/
def matchPart (segs : List (List Atom)) (depth : Nat) (name : String) : Option Caps :=
  (segs.get? depth).bind (fun sg => matchAtoms sg name.data)

/-- Match each path component against the segment matcher of its depth, as
the walk does along one root-to-leaf path, and merge the captures in
order. -/
def matchComponents : List (List Atom) → List (List Char) → Option Caps
  | [], [] => some []
  | sg :: segs, c :: comps =>
      (matchAtoms sg c).bind (fun nv =>
        (matchComponents segs comps).map (fun m => nv ++ m))
  | _, _ => none

/-- Model of Python `str.format` restricted to patterns whose replacement
fields are simple names without conversion or format spec, which is the
only use in the module (`self.corn.pattern.format(**values)`): doubled
braces emit one literal brace, `\x7bname\x7d` substitutes the named value
(a missing name is a KeyError), a lone closing brace or an unterminated
field is a ValueError.  The Bool is the in-field state and the first list
the buffered field name. -/
def fmtScan (v : String → Option String) :
    Bool → List Char → List Char → Except Err (List Char)
  | false, _, [] => .ok []
  | true, _, [] => .error .unmatchedBrace
  | true, buf, c :: rest =>
      if c = cbrace then
        match v ⟨buf⟩ with
        | none => .error (.missingKey ⟨buf⟩)
        | some val => (fmtScan v false [] rest).map (fun out => val.data ++ out)
      else fmtScan v true (buf ++ [c]) rest
  | false, buf, [c] =>
      if c = obrace then .error .unmatchedBrace
      else if c = cbrace then .error .singleBrace
      else (fmtScan v false buf []).map (fun out => c :: out)
  | false, buf, c :: c2 :: rest =>
      if c = obrace then
        if c2 = obrace then
          (fmtScan v false buf rest).map (fun out => obrace :: out)
        else fmtScan v true [] (c2 :: rest)
      else if c = cbrace then
        if c2 = cbrace then
          (fmtScan v false buf rest).map (fun out => cbrace :: out)
        else .error .singleBrace
      else (fmtScan v false buf (c2 :: rest)).map (fun out => c :: out)

/-- Derivation of the relative path from a field-value mapping, as
performed by `self.corn.pattern.format(**values)`. -/
def formatPattern (p : List Char) (v : String → Option String) : Except Err (List Char) :=
  fmtScan v false [] p

/-- Substitute field values into the atoms of one parsed segment. -/
def substSeg (v : String → String) : List Atom → List Char
  | [] => []
  | Atom.lit c :: rest => c :: substSeg v rest
  | Atom.field n :: rest => (v n).data ++ substSeg v rest

/-- The field names of one parsed segment, in order. -/
def segFields : List Atom → List String
  | [] => []
  | Atom.lit _ :: rest => segFields rest
  | Atom.field n :: rest => n :: segFields rest

/-- Rebuild the exact text a successful segment match consumed, from the
segment atoms and the captures (in group order). -/
def reconAtoms : List Atom → Caps → List Char
  | [], _ => []
  | Atom.lit c :: rest, caps => c :: reconAtoms rest caps
  | Atom.field _ :: _, [] => []
  | Atom.field _ :: rest, (_, val) :: caps => val.data ++ reconAtoms rest caps

/-- Python str.split on the separator character: empty components are kept
and the split of the empty string is one empty component. -/
def splitSlash : List Char → List (List Char)
  | [] => [[]]
  | c :: rest =>
      if c = slashC then [] :: splitSlash rest
      else
        match splitSlash rest with
        | [] => [[c]]
        | s :: ss => (c :: s) :: ss

/-- Python str.endswith for a single slash, used by os.path.join. -/
def endsSlash (s : String) : Bool :=
  match s.data.getLast? with
  | some c => c = slashC
  | none => false

/-- One step of Python os.path.join on POSIX: a component starting with the
separator resets the result, otherwise a separator is inserted unless one
is already present. -/
def pjoinOne (acc : String) (p : String) : String :=
  if strStarts p "/" then p
  else if acc = "" ∨ endsSlash acc then acc ++ p
  else acc ++ "/" ++ p

/-- Python os.path.join on POSIX over a component list. -/
def pjoin (root : String) (parts : List String) : String :=
  parts.foldl pjoinOne root

/-- Embedding of `FilesystemItem.filename`: each identity property value is
checked to be text (always true in this model, where values are strings,
so the `strict_unicode` TypeError branch is unreachable) and to contain no
slash; then the original pattern string is formatted with the value
dictionary, whose keys are exactly the identity property names. -/
def itemFilename (idProps : List String) (pattern : List Char) (v : String → String) :
    Except Err (List Char) :=
  if idProps.any (fun n => (v n).data.contains slashC) then .error .slashInValue
  else formatPattern pattern (fun n => if idProps.contains n then some (v n) else none)

/-- Embedding of `FilesystemItem.full_filename`:
`os.path.join(self.corn.root_dir, *self.filename.split('/'))`. -/
def itemFullFilename (root : String) (idProps : List String) (pattern : List Char)
    (v : String → String) : Except Err String :=
  (itemFilename idProps pattern v).map
    (fun rel => pjoin root ((splitSlash rel).map (fun l => (⟨l⟩ : String))))

/-- A directory tree entry: a regular file with byte content, or a
directory with a named-entry list. -/
inductive Entry where
  | file (content : List Nat)
  | dir (children : List (String × Entry))
  deriving Repr

/-- Look up a name in a directory's entry list. -/
def lookupName : List (String × Entry) → String → Option Entry
  | [], _ => none
  | (k, e) :: rest, n => if k = n then some e else lookupName rest n

/-- Remove a name from a directory's entry list. -/
def removeName : List (String × Entry) → String → List (String × Entry)
  | [], _ => []
  | (k, e) :: rest, n => if k = n then rest else (k, e) :: removeName rest n

/-- Replace or add a name in a directory's entry list. -/
def setName : List (String × Entry) → String → Entry → List (String × Entry)
  | [], n, v => [(n, v)]
  | (k, e) :: rest, n, v =>
      if k = n then (n, v) :: rest else (k, e) :: setName rest n v

/-- Model of `os.listdir` relative to the configured root: the names in the
directory reached by the given path components, or None (an OSError) if
the path is missing or not a directory. -/
def listdirAt : List (String × Entry) → List String → Option (List String)
  | ch, [] => some (ch.map (fun p => p.1))
  | ch, d :: ds =>
      match lookupName ch d with
      | some (Entry.dir ch2) => listdirAt ch2 ds
      | _ => none

/-- Model of `os.remove` relative to the configured root: remove the
regular file at the given path, or None (an OSError) if the path is
missing or not a regular file. -/
def removeFileAt : List (String × Entry) → List String → Option (List (String × Entry))
  | _, [] => none
  | ch, d :: ds =>
      match ds with
      | [] =>
          match lookupName ch d with
          | some (Entry.file _) => some (removeName ch d)
          | _ => none
      | _ :: _ =>
          match lookupName ch d with
          | some (Entry.dir ch2) =>
              (removeFileAt ch2 ds).map (fun c2 => setName ch d (Entry.dir c2))
          | _ => none

/-- Model of `os.rmdir` relative to the configured root: remove the empty
directory at the given path, or None (an OSError) if the path is missing,
not a directory, or not empty.  The empty path names the configured root
itself; removing it is modelled as an error outcome, so that a run in
which the root survives is distinguishable from one in which it does
not. -/
def rmdirAt : List (String × Entry) → List String → Option (List (String × Entry))
  | _, [] => none
  | ch, d :: ds =>
      match ds with
      | [] =>
          match lookupName ch d with
          | some (Entry.dir []) => some (removeName ch d)
          | _ => none
      | _ :: _ =>
          match lookupName ch d with
          | some (Entry.dir ch2) =>
              (rmdirAt ch2 ds).map (fun c2 => setName ch d (Entry.dir c2))
          | _ => none

/-- Embedding of the directory-cleanup loop of `Filesystem.delete` (lines
197-203).  The argument is the reversed current `path_parts`, so that the
final `pop()` of each iteration is structural: each step lists the
directory named by the re-reversed parts, stops if the listing is
nonempty, and otherwise removes the directory and continues with the
parent. -/
def cleanupRev : List (String × Entry) → List String → Option (List (String × Entry))
  | ch, [] => some ch
  | ch, d :: rest =>
      match listdirAt ch ((d :: rest).reverse) with
      | none => none
      | some [] =>
          (rmdirAt ch ((d :: rest).reverse)).bind (fun c2 => cleanupRev c2 rest)
      | some (_ :: _) => some ch

/-- Embedding of `Filesystem.delete` from `os.remove` onward (lines
192-203), on the tree of entries under the configured root; `parts` is
`item.filename.split('/')`.  The loop starts from `path_parts` with the
file name popped, i.e. the immediate parent directory. -/
def deleteModel (ch : List (String × Entry)) (parts : List String) :
    Option (List (String × Entry)) :=
  (removeFileAt ch parts).bind (fun c1 => cleanupRev c1 parts.dropLast.reverse)

/-- Modelled from the spec: the ancestor directory chain of a file path,
from the file's immediate parent upward toward, but excluding, the
configured root (the root would be the empty prefix, which the chain never
contains). -/
def ancestorChain (parts : List String) : List (List String) :=
  ((List.range (parts.length - 1)).reverse).map (fun k => parts.take (k+1))

/-- Modelled from the spec: walk upward along the given directory chain; a
directory that is empty is removed and the walk continues to its parent;
the walk stops at the first non-empty directory (a missing directory is an
error, as the underlying listing call raises). -/
def walkUpward : List (String × Entry) → List (List String) → Option (List (String × Entry))
  | ch, [] => some ch
  | ch, d :: rest =>
      match listdirAt ch d with
      | none => none
      | some [] => (rmdirAt ch d).bind (fun c2 => walkUpward c2 rest)
      | some (_ :: _) => some ch

/-- A record yielded by the walk: the merged field values and the path
components of the backing file (to which `_create_item` binds the lazy
reader). -/
structure FsRecord where
  values : Caps
  path : List String
  deriving Repr, DecidableEq

/-- Embedding of `Filesystem._walk`: the depth is the length of the current
`path_parts`; each listed entry name is matched against the segment
matcher of the current depth, a non-match is skipped; at leaf depth
(number of segments minus one) a matching regular file is yielded with the
accumulated values, and below leaf depth a matching directory is descended
into with the accumulated values. -/
def walkList : List (List Atom) → List String → Caps → List (String × Entry) → List FsRecord
  | _, _, _, [] => []
  | segs, pathParts, prev, (name, e) :: rest =>
      (match matchPart segs pathParts.length name with
       | none => []
       | some nv =>
          if pathParts.length = segs.length - 1 then
            match e with
            | Entry.file _ => [⟨prev ++ nv, pathParts ++ [name]⟩]
            | Entry.dir _ => []
          else
            match e with
            | Entry.dir ch2 => walkList segs (pathParts ++ [name]) (prev ++ nv) ch2
            | Entry.file _ => [])
      ++ walkList segs pathParts prev rest

/-- Embedding of `Filesystem._all`: the walk started at the root with no
path components and no captured values. -/
def allRecords (segs : List (List Atom)) (ch : List (String × Entry)) : List FsRecord :=
  walkList segs [] [] ch

/-- Modelled from the spec: the operating system resolves "." and ".."
components when a derived path is used, so semantic containment ("the
derived path lies under the configured root") is stated over the resolved
component list.  Empty components and "." are dropped; ".." removes the
preceding component. -/
def normSegs : List (List Char) → List (List Char) → List (List Char)
  | acc, [] => acc
  | acc, seg :: rest =>
      if seg = [] ∨ seg = ['.'] then normSegs acc rest
      else if seg = ['.', '.'] then normSegs acc.dropLast rest
      else normSegs (acc ++ [seg]) rest

/-- Modelled from the spec: resolve an absolute POSIX path to its canonical
form, for stating semantic containment under the root. -/
def normalizePath (p : String) : String :=
  ⟨slashC :: List.intercalate [slashC] (normSegs [] (splitSlash p.data))⟩

/-- Modelled from the spec: the path lies under the configured root once
both are resolved. -/
def liesUnder (root p : String) : Bool :=
  decide (normalizePath p = normalizePath root) ||
    strStarts (normalizePath p) (normalizePath root ++ "/")

/-- Look up a file by absolute path in the flat file map. -/
def getFile : List (String × List Nat) → String → Option (List Nat)
  | [], _ => none
  | (k, bs) :: rest, n => if k = n then some bs else getFile rest n

/-- Write (create or replace) a file by absolute path in the flat file
map. -/
def setFile : List (String × List Nat) → String → List Nat → List (String × List Nat)
  | [], n, bs => [(n, bs)]
  | (k, old) :: rest, n, bs =>
      if k = n then (n, bs) :: rest else (k, old) :: setFile rest n bs

/-- A flat filesystem state for the save path: the set of known directory
paths and a map from resolved absolute file paths to byte contents. -/
structure FlatFs where
  dirs : List String
  files : List (String × List Nat)
  deriving Repr, DecidableEq

/-- Embedding of `os.path.dirname` on POSIX: the text up to the last
separator, with trailing separators stripped unless the result consists
only of separators. -/
def dirname (p : String) : String :=
  let revAfter := p.data.reverse.dropWhile (fun c => c ≠ slashC)
  if revAfter = [] then ""
  else if revAfter.all (fun c => c = slashC) then ⟨revAfter.reverse⟩
  else ⟨(revAfter.dropWhile (fun c => c = slashC)).reverse⟩

/-- Embedding of the body of `Filesystem.save` after the full file name has
been derived (lines 174-185): assert that the name starts with the
configured root string, create the parent directory if missing, then write
the content at the name.  The filesystem the operating system mutates is
keyed by resolved paths, so the write lands at the resolved location of
the derived name.  The state is returned unchanged alongside any error. -/
def saveAt (root full : String) (content : List Nat) (fs : FlatFs) :
    Except Err Unit × FlatFs :=
  if strStarts full root = false then (.error .assertFailed, fs)
  else
    let d := normalizePath (dirname full)
    let dirs1 := if fs.dirs.contains d then fs.dirs else fs.dirs ++ [d]
    (.ok (), ⟨dirs1, setFile fs.files (normalizePath full) content⟩)

/-- Embedding of `Filesystem.save` (lines 171-185): derive the full file
name (`FilesystemItem.filename` raises in there if a value contains a
slash), then run the checked write.  The state is returned unchanged
alongside any error. -/
def saveModel (root : String) (idProps : List String) (pattern : List Char)
    (v : String → String) (content : List Nat) (fs : FlatFs) :
    Except Err Unit × FlatFs :=
  match itemFullFilename root idProps pattern v with
  | .error e => (.error e, fs)
  | .ok full => saveAt root full content fs

/-- Embedding of the body of `Filesystem.delete` after the relative parts
have been derived (lines 189-203): assert that the joined full name starts
with the configured root string, then remove the file and clean up the
emptied ancestors.  The state is returned unchanged alongside any
error. -/
def deleteAt (root : String) (parts : List String) (ch : List (String × Entry)) :
    Except Err Unit × List (String × Entry) :=
  if strStarts (pjoin root parts) root = false then (.error .assertFailed, ch)
  else
    match deleteModel ch parts with
    | none => (.error .osError, ch)
    | some ch2 => (.ok (), ch2)

/-- Embedding of `Filesystem.delete` (lines 187-203): derive the relative
name, split it into parts, then run the checked removal.  The state is
returned unchanged alongside any error. -/
def deleteChecked (root : String) (idProps : List String) (pattern : List Char)
    (v : String → String) (ch : List (String × Entry)) :
    Except Err Unit × List (String × Entry) :=
  match itemFilename idProps pattern v with
  | .error e => (.error e, ch)
  | .ok rel => deleteAt root ((splitSlash rel).map (fun l => (⟨l⟩ : String))) ch

/-- The cached or freshly read value of a deferred content accessor: raw
bytes when no encoding is configured, text decoded with the configured
encoding otherwise (represented symbolically by the encoding name and the
raw bytes it decodes). -/
inductive FileData where
  | bytes (bs : List Nat)
  | text (encoding : String) (bs : List Nat)
  deriving Repr, DecidableEq

/-- Embedding of the `LazyFileReader` object state: the bound file name,
the configured encoding, and the cached content (None until first read,
mirroring `self.content = None`). -/
structure LazyFileReader where
  filename : String
  encoding : Option String
  content : Option FileData
  deriving Repr, DecidableEq

/-- Embedding of `LazyFileReader.__call__` (the Python `item` argument is
unused and omitted): if a content is cached it is returned unchanged;
otherwise the whole file is read once, in binary or text mode according to
the configured encoding, and the value is cached.  None models the IO
error of a missing file. -/
def readerCall (files : List (String × List Nat)) (r : LazyFileReader) :
    Option (FileData × LazyFileReader) :=
  match r.content with
  | some c => some (c, r)
  | none =>
      match getFile files r.filename with
      | none => none
      | some bs =>
          let c := match r.encoding with
            | none => FileData.bytes bs
            | some e => FileData.text e bs
          some (c, ⟨r.filename, r.encoding, some c⟩)

/-- Embedding of `Filesystem.register` (lines 168-169): it unconditionally
raises TypeError for every name and keyword-argument combination. -/
def registerModel (_name : String) (_kwargs : List (String × String)) : Except Err Unit :=
  .error .typeError

/-- The mode selection of the lazy reader: raw bytes without an encoding
(mode rb), text decoded with the encoding otherwise (mode rt). -/
def encodeData (enc : Option String) (bs : List Nat) : FileData :=
  match enc with
  | none => FileData.bytes bs
  | some e => FileData.text e bs

/-- No two adjacent equal brace characters occur, the previous character
(if any) included: on such inputs the doubled-brace escape branches of
both the tokenizer and Python str.format are never taken. -/
def ndFrom : Option Char → List Char → Bool
  | _, [] => true
  | prev, c :: rest =>
      !(decide (prev = some c) && (c = obrace || c = cbrace)) && ndFrom (some c) rest

/-- A pattern without doubled-brace escapes. -/
def noDoubles (p : List Char) : Bool := ndFrom none p

/-- The straightforward tokenizer that the full tokenizer agrees with on
patterns without doubled braces: a slash is a separator, an opening brace
starts a field read up to the closing brace, a lone closing brace is an
error, anything else is a literal.  The Bool is the in-field state and the
first list the buffered field name; the artificial trailing separator is
not produced. -/
def simpTok : Bool → List Char → List Char → Except Err (List Tok)
  | false, _, [] => .ok []
  | true, _, [] => .error .unmatchedBrace
  | true, buf, c :: rest =>
      if c = cbrace then (simpTok false [] rest).map (fun ts => Tok.prop ⟨buf⟩ :: ts)
      else simpTok true (buf ++ [c]) rest
  | false, _, c :: rest =>
      if c = slashC then (simpTok false [] rest).map (fun ts => Tok.sep :: ts)
      else if c = obrace then simpTok true [] rest
      else if c = cbrace then .error .singleBrace
      else (simpTok false [] rest).map (fun ts => Tok.lit c :: ts)

/-- Substitute field values into a token list: a separator becomes the
slash, a property its value, a literal itself. -/
def substToks (v : String → String) : List Tok → List Char
  | [] => []
  | Tok.sep :: ts => slashC :: substToks v ts
  | Tok.prop n :: ts => (v n).data ++ substToks v ts
  | Tok.lit c :: ts => c :: substToks v ts

/-- The tokens a parsed segment came from. -/
def segToks : List Atom → List Tok
  | [] => []
  | Atom.lit c :: rest => Tok.lit c :: segToks rest
  | Atom.field n :: rest => Tok.prop n :: segToks rest

/-- The full token stream a parsed segment list came from: each segment's
tokens followed by one separator (the last one artificial). -/
def flatSegsToks : List (List Atom) → List Tok
  | [] => []
  | sg :: segs => segToks sg ++ (Tok.sep :: flatSegsToks segs)

/-- All property names of a parsed segment list, in declaration order. -/
def propsOf (segs : List (List Atom)) : List String :=
  (segs.map segFields).flatten

/-- Join components with the slash separator (the inverse of
`splitSlash` on slash-free components). -/
def joinSlash : List (List Char) → List Char
  | [] => []
  | [c] => c
  | c :: c2 :: rest => c ++ slashC :: joinSlash (c2 :: rest)

/-- The literal characters of a parsed segment, in order. -/
def litsOf : List Atom → List Char
  | [] => []
  | Atom.lit c :: rest => c :: litsOf rest
  | Atom.field _ :: rest => litsOf rest

/-! ## General lemmas about the matcher -/

theorem tryLen_inv (n : String) (s : List Char) (rec : List Char → Option Caps) :
    ∀ (k : Nat) (caps : Caps), tryLen n s rec k = some caps →
      ∃ j m, j ≤ k ∧ caps = (n, ⟨s.take j⟩) :: m ∧ rec (s.drop j) = some m := by
  intro k
  induction k with
  | zero =>
      intro caps h
      simp only [tryLen, Option.map_eq_some'] at h
      obtain ⟨m, hm, hcaps⟩ := h
      exact ⟨0, m, Nat.le_refl 0, by simpa using hcaps.symm, by simpa using hm⟩
  | succ k ih =>
      intro caps h
      rw [tryLen] at h
      by_cases hg : ((s.take (k+1)).all (fun c => c ≠ nl)) = true
      · rw [if_pos hg] at h
        cases hr : (rec (s.drop (k+1))).map (fun m => (n, (⟨s.take (k+1)⟩ : String)) :: m) with
        | none =>
            rw [hr] at h
            obtain ⟨j, m, hj, hc, hm⟩ := ih caps h
            exact ⟨j, m, Nat.le_succ_of_le hj, hc, hm⟩
        | some caps2 =>
            rw [hr] at h
            cases h
            obtain ⟨m, hm, hcaps⟩ := Option.map_eq_some'.mp hr
            exact ⟨k + 1, m, Nat.le_refl _, hcaps.symm, hm⟩
      · rw [if_neg hg] at h
        obtain ⟨j, m, hj, hc, hm⟩ := ih caps h
        exact ⟨j, m, Nat.le_succ_of_le hj, hc, hm⟩

theorem matchAtoms_anchored_aux :
    ∀ (atoms : List Atom) (s : List Char) (caps : Caps),
      matchAtoms atoms s = some caps →
      reconAtoms atoms caps = s ∨ reconAtoms atoms caps ++ [nl] = s := by
  intro atoms
  induction atoms with
  | nil =>
      intro s caps h
      rw [matchAtoms] at h
      by_cases hc : s = [] ∨ s = [nl]
      · rw [if_pos hc] at h
        cases h
        rcases hc with hc | hc <;> subst hc
        · exact Or.inl rfl
        · exact Or.inr rfl
      · rw [if_neg hc] at h; cases h
  | cons a rest ih =>
      cases a with
      | lit c =>
          intro s caps h
          cases s with
          | nil => rw [matchAtoms] at h; cases h
          | cons x s2 =>
              rw [matchAtoms] at h
              by_cases hx : x = c
              · rw [if_pos hx] at h
                subst hx
                rcases ih s2 caps h with h1 | h1
                · exact Or.inl (by rw [reconAtoms, h1])
                · exact Or.inr (by rw [reconAtoms]; rw [List.cons_append, h1])
              · rw [if_neg hx] at h; cases h
      | field nm =>
          intro s caps h
          rw [matchAtoms] at h
          obtain ⟨j, m, hj, hc, hm⟩ := tryLen_inv nm s _ s.length caps h
          subst hc
          rcases ih _ m hm with h1 | h1
          · refine Or.inl ?_
            show (⟨s.take j⟩ : String).data ++ reconAtoms rest m = s
            rw [show (⟨s.take j⟩ : String).data = s.take j from rfl, h1]
            exact List.take_append_drop j s
          · refine Or.inr ?_
            show (⟨s.take j⟩ : String).data ++ reconAtoms rest m ++ [nl] = s
            rw [show (⟨s.take j⟩ : String).data = s.take j from rfl,
              List.append_assoc, h1]
            exact List.take_append_drop j s

theorem matchAtoms_lits (L : List Char) :
    ∀ s : List Char, matchAtoms (L.map Atom.lit) s =
      if s = L ∨ s = L ++ [nl] then some [] else none := by
  induction L with
  | nil =>
      intro s
      rw [List.map_nil, matchAtoms]
      simp
  | cons c L ih =>
      intro s
      cases s with
      | nil =>
          rw [List.map_cons, matchAtoms]
          have : ¬(([] : List Char) = c :: L ∨ ([] : List Char) = c :: L ++ [nl]) := by
            simp
          rw [if_neg this]
      | cons x s2 =>
          rw [List.map_cons, matchAtoms]
          by_cases hx : x = c
          · subst hx
            rw [if_pos rfl, ih s2]
            by_cases h2 : s2 = L ∨ s2 = L ++ [nl]
            · rw [if_pos h2, if_pos]
              rcases h2 with h2 | h2 <;> subst h2 <;> simp
            · rw [if_neg h2, if_neg]
              intro hcon
              rcases hcon with hcon | hcon
              · exact h2 (Or.inl (by injection hcon))
              · exact h2 (Or.inr (by injection hcon))
          · rw [if_neg hx, if_neg]
            intro hcon
            rcases hcon with hcon | hcon
            · injection hcon with h1 _; exact hx h1
            · rw [List.cons_append] at hcon
              injection hcon with h1 _; exact hx h1

/-! ## Lemmas about the delete cleanup loop -/

/-- The directory chains visited by the cleanup loop, indexed by the
reversed part list it recurses on. -/
def chainRev : List String → List (List String)
  | [] => []
  | d :: rest => (d :: rest).reverse :: chainRev rest

theorem cleanupRev_eq_walkUpward :
    ∀ (r : List String) (ch : List (String × Entry)),
      cleanupRev ch r = walkUpward ch (chainRev r) := by
  intro r
  induction r with
  | nil => intro ch; rfl
  | cons d rest ih =>
      intro ch
      rw [cleanupRev, chainRev, walkUpward]
      cases h : listdirAt ch ((d :: rest).reverse) with
      | none => rfl
      | some names =>
          cases names with
          | nil =>
              cases hr : rmdirAt ch ((d :: rest).reverse) with
              | none => rfl
              | some c2 => simp only [Option.some_bind, ih c2]
          | cons a as => rfl

theorem chainRev_reverse (l : List String) :
    chainRev l.reverse =
      (List.range l.length).reverse.map (fun k => l.take (k+1)) := by
  induction l using List.reverseRecOn with
  | nil => rfl
  | append_singleton l a ih =>
      rw [List.reverse_append, List.reverse_singleton, List.singleton_append,
        chainRev]
      have h1 : (a :: l.reverse).reverse = l ++ [a] := by
        rw [List.reverse_cons, List.reverse_reverse]
      rw [h1, ih]
      rw [List.length_append, List.length_singleton, List.range_succ,
        List.reverse_append, List.reverse_singleton, List.singleton_append,
        List.map_cons]
      have h2 : (l ++ [a]).take (l.length + 1) = l ++ [a] := by
        have : l.length + 1 = (l ++ [a]).length := by
          rw [List.length_append, List.length_singleton]
        rw [this, List.take_length]
      rw [h2]
      congr 1
      refine List.map_congr_left ?_
      intro k hk
      rw [List.mem_reverse, List.mem_range] at hk
      exact (List.take_append_of_le_length (Nat.succ_le_of_lt hk)).symm

theorem ancestorChain_eq (parts : List String) :
    chainRev parts.dropLast.reverse = ancestorChain parts := by
  rw [chainRev_reverse, ancestorChain, List.length_dropLast]
  refine List.map_congr_left ?_
  intro k hk
  rw [List.mem_reverse, List.mem_range] at hk
  rw [List.dropLast_eq_take, List.take_take]
  congr 1
  omega

/-! ## Lemmas relating the tokenizer, str.format and the parser on
patterns without doubled braces -/

theorem ndFrom_tail {prev : Option Char} {c : Char} {rest : List Char}
    (h : ndFrom prev (c :: rest) = true) : ndFrom (some c) rest = true := by
  rw [ndFrom] at h
  exact ((Bool.and_eq_true _ _).mp h).2

theorem ndFrom_prev_ne {prev : Option Char} {c : Char} {rest : List Char}
    (h : ndFrom prev (c :: rest) = true) (hbr : c = obrace ∨ c = cbrace) :
    prev ≠ some c := by
  rw [ndFrom] at h
  have h1 := ((Bool.and_eq_true _ _).mp h).1
  intro hc
  subst hc
  rcases hbr with rfl | rfl <;> simp_all

theorem ndFrom_head_ne {c : Char} {rest : List Char}
    (hbr : c = obrace ∨ c = cbrace) (h : ndFrom (some c) rest = true) :
    rest.head? ≠ some c := by
  cases rest with
  | nil => simp
  | cons r rs =>
      simp only [List.head?_cons, ne_eq, Option.some.injEq]
      intro hc
      subst hc
      rw [ndFrom] at h
      have h1 := ((Bool.and_eq_true _ _).mp h).1
      rcases hbr with rfl | rfl <;> simp_all

theorem ndFrom_weaken {prev : Option Char} {cs : List Char}
    (h : ndFrom prev cs = true) : ndFrom none cs = true := by
  cases cs with
  | nil => rfl
  | cons c rest =>
      rw [ndFrom] at h ⊢
      have h2 := ((Bool.and_eq_true _ _).mp h).2
      simp [h2]

theorem simpTok_buf_irrel (cs : List Char) (buf buf2 : List Char) :
    simpTok false buf cs = simpTok false buf2 cs := by
  cases cs <;> rfl

theorem tokStep_eq_simpTok :
    ∀ (cs : List Char) (fld : Bool) (prev : Option Char) (buf : List Char),
      ndFrom prev cs = true →
      tokStep prev fld buf cs = (simpTok fld buf cs).map (fun ts => ts ++ [Tok.sep]) := by
  intro cs
  induction cs with
  | nil =>
      intro fld prev buf _
      cases fld with
      | false => rfl
      | true => rfl
  | cons c rest ih =>
      intro fld prev buf hnd
      have htl : ndFrom (some c) rest = true := ndFrom_tail hnd
      cases fld with
      | true =>
          by_cases hcb : c = cbrace
          · subst hcb
            rw [tokStep, if_pos rfl, simpTok, if_pos rfl]
            rw [ih false (some cbrace) [] htl]
            cases simpTok false [] rest <;> rfl
          · rw [tokStep, if_neg hcb, simpTok, if_neg hcb]
            exact ih true (some c) (buf ++ [c]) htl
      | false =>
          by_cases hsl : c = slashC
          · subst hsl
            rw [tokStep, if_pos rfl, simpTok, if_pos rfl]
            rw [ih false (some slashC) buf htl, simpTok_buf_irrel rest buf []]
            cases simpTok false [] rest <;> rfl
          · by_cases hob : c = obrace
            · subst hob
              rw [tokStep, if_neg hsl,
                if_neg (by intro hcon; exact ndFrom_head_ne (Or.inl rfl) htl hcon.2),
                if_neg (by intro hcon; exact absurd hcon.1 (by decide)),
                if_pos ⟨rfl, ndFrom_prev_ne hnd (Or.inl rfl)⟩]
              rw [simpTok, if_neg hsl, if_pos rfl]
              exact ih true (some obrace) [] htl
            · by_cases hcb2 : c = cbrace
              · subst hcb2
                rw [tokStep, if_neg hsl,
                  if_neg (by intro hcon; exact ndFrom_head_ne (Or.inr rfl) htl hcon.2),
                  if_pos ⟨rfl, ndFrom_prev_ne hnd (Or.inr rfl)⟩]
                rw [simpTok, if_neg hsl, if_neg (by decide), if_pos rfl]
                rfl
              · rw [tokStep, if_neg hsl,
                  if_neg (by intro hcon; exact Or.elim hcon.1 hob hcb2),
                  if_neg (by intro hcon; exact hcb2 hcon.1),
                  if_neg (by intro hcon; exact hob hcon.1)]
                rw [simpTok, if_neg hsl, if_neg hob, if_neg hcb2]
                rw [ih false (some c) buf htl, simpTok_buf_irrel rest buf []]
                cases simpTok false [] rest <;> rfl

theorem fmtScan_eq_subst :
    ∀ (cs : List Char) (fld : Bool) (buf : List Char) (w : String → Option String)
      (v : String → String) (toks : List Tok),
      ndFrom none cs = true →
      simpTok fld buf cs = .ok toks →
      (∀ n, Tok.prop n ∈ toks → w n = some (v n)) →
      fmtScan w fld buf cs = .ok (substToks v toks) := by
  intro cs
  induction cs with
  | nil =>
      intro fld buf w v toks _ hok _
      cases fld with
      | false =>
          rw [simpTok] at hok
          simp only [Except.ok.injEq] at hok
          subst hok
          rfl
      | true =>
          rw [simpTok] at hok
          exact Except.noConfusion hok
  | cons c rest ih =>
      intro fld buf w v toks hnd hok hw
      have hndr : ndFrom none rest = true := ndFrom_weaken (ndFrom_tail hnd)
      cases fld with
      | true =>
          by_cases hcb : c = cbrace
          · subst hcb
            rw [simpTok, if_pos rfl] at hok
            cases hX : simpTok false [] rest with
            | error e => rw [hX] at hok; exact Except.noConfusion hok
            | ok ts =>
                rw [hX] at hok
                simp only [Except.map, Except.ok.injEq] at hok
                subst hok
                rw [fmtScan, if_pos rfl, hw ⟨buf⟩ (List.mem_cons_self _ _)]
                rw [ih false [] w v ts hndr hX
                  (fun n hn => hw n (List.mem_cons_of_mem _ hn))]
                rfl
          · rw [simpTok, if_neg hcb] at hok
            rw [fmtScan, if_neg hcb]
            exact ih true (buf ++ [c]) w v toks hndr hok hw
      | false =>
          cases rest with
          | nil =>
              by_cases hsl : c = slashC
              · subst hsl
                rw [simpTok, if_pos rfl] at hok
                simp only [simpTok, Except.map, Except.ok.injEq] at hok
                subst hok
                rw [fmtScan, if_neg (by decide), if_neg (by decide)]
                rfl
              · by_cases hob : c = obrace
                · subst hob
                  rw [simpTok, if_neg hsl, if_pos rfl, simpTok] at hok
                  exact Except.noConfusion hok
                · by_cases hcb : c = cbrace
                  · subst hcb
                    rw [simpTok, if_neg hsl, if_neg (by decide), if_pos rfl] at hok
                    exact Except.noConfusion hok
                  · rw [simpTok, if_neg hsl, if_neg hob, if_neg hcb] at hok
                    simp only [simpTok, Except.map, Except.ok.injEq] at hok
                    subst hok
                    rw [fmtScan, if_neg hob, if_neg hcb]
                    rfl
          | cons c2 rest2 =>
              by_cases hsl : c = slashC
              · subst hsl
                rw [simpTok, if_pos rfl] at hok
                cases hX : simpTok false [] (c2 :: rest2) with
                | error e => rw [hX] at hok; exact Except.noConfusion hok
                | ok ts =>
                    rw [hX] at hok
                    simp only [Except.map, Except.ok.injEq] at hok
                    subst hok
                    rw [fmtScan, if_neg (by decide), if_neg (by decide)]
                    rw [ih false buf w v ts hndr
                      (by rw [simpTok_buf_irrel (c2 :: rest2) buf []]; exact hX)
                      (fun n hn => hw n (List.mem_cons_of_mem _ hn))]
                    rfl
              · by_cases hob : c = obrace
                · subst hob
                  have hc2 : ¬ c2 = obrace := by
                    intro hc
                    subst hc
                    exact ndFrom_head_ne (Or.inl rfl) (ndFrom_tail hnd) rfl
                  rw [simpTok, if_neg hsl, if_pos rfl] at hok
                  rw [fmtScan, if_pos rfl, if_neg hc2]
                  exact ih true [] w v toks hndr hok hw
                · by_cases hcb : c = cbrace
                  · subst hcb
                    rw [simpTok, if_neg hsl, if_neg (by decide), if_pos rfl] at hok
                    exact Except.noConfusion hok
                  · rw [simpTok, if_neg hsl, if_neg hob, if_neg hcb] at hok
                    cases hX : simpTok false [] (c2 :: rest2) with
                    | error e => rw [hX] at hok; exact Except.noConfusion hok
                    | ok ts =>
                        rw [hX] at hok
                        simp only [Except.map, Except.ok.injEq] at hok
                        subst hok
                        rw [fmtScan, if_neg hob, if_neg hcb]
                        rw [ih false buf w v ts hndr
                          (by rw [simpTok_buf_irrel (c2 :: rest2) buf []]; exact hX)
                          (fun n hn => hw n (List.mem_cons_of_mem _ hn))]
                        rfl

theorem substToks_append (v : String → String) (t1 t2 : List Tok) :
    substToks v (t1 ++ t2) = substToks v t1 ++ substToks v t2 := by
  induction t1 with
  | nil => rfl
  | cons t ts ih => cases t <;> simp [substToks, ih]

theorem substToks_segToks (v : String → String) (sg : List Atom) :
    substToks v (segToks sg) = substSeg v sg := by
  induction sg with
  | nil => rfl
  | cons a rest ih => cases a <;> simp [segToks, substToks, substSeg, ih]

theorem flatSegsToks_ends_sep (segs : List (List Atom)) (h : segs ≠ []) :
    ∃ Y, flatSegsToks segs = Y ++ [Tok.sep] := by
  induction segs with
  | nil => exact absurd rfl h
  | cons sg rest ih =>
      cases rest with
      | nil => exact ⟨segToks sg, by simp [flatSegsToks]⟩
      | cons sg2 rest2 =>
          obtain ⟨Y, hY⟩ := ih (by simp)
          exact ⟨segToks sg ++ Tok.sep :: Y, by rw [flatSegsToks, hY]; simp⟩

theorem subst_flat (v : String → String) :
    ∀ (segs : List (List Atom)) (T : List Tok),
      T ++ [Tok.sep] = flatSegsToks segs →
      substToks v T = joinSlash (segs.map (substSeg v)) := by
  intro segs
  induction segs with
  | nil =>
      intro T hT
      rw [flatSegsToks] at hT
      exact absurd hT (by simp)
  | cons sg rest ih =>
      intro T hT
      cases rest with
      | nil =>
          rw [flatSegsToks, flatSegsToks] at hT
          have hT2 : T = segToks sg := by
            have h2 : T ++ [Tok.sep] = segToks sg ++ [Tok.sep] := hT
            exact List.append_cancel_right h2
          rw [hT2, substToks_segToks]
          rfl
      | cons sg2 rest2 =>
          rw [flatSegsToks] at hT
          obtain ⟨Y, hY⟩ := flatSegsToks_ends_sep (sg2 :: rest2) (by simp)
          rw [hY] at hT
          have hT2 : T = segToks sg ++ Tok.sep :: Y := by
            have hcat : T ++ [Tok.sep] = (segToks sg ++ Tok.sep :: Y) ++ [Tok.sep] := by
              rw [hT]
              simp
            exact List.append_cancel_right hcat
          rw [hT2, substToks_append, substToks_segToks]
          rw [show substToks v (Tok.sep :: Y) = slashC :: substToks v Y from rfl]
          rw [ih Y hY.symm]
          simp only [List.map_cons, joinSlash]

theorem splitSlash_no_slash (c : List Char) (h : slashC ∉ c) : splitSlash c = [c] := by
  induction c with
  | nil => rfl
  | cons x rest ih =>
      rw [splitSlash,
        if_neg (by intro hx; subst hx; exact h (List.mem_cons_self _ _)),
        ih (fun hm => h (List.mem_cons_of_mem _ hm))]

theorem splitSlash_append (c t : List Char) (h : slashC ∉ c) :
    splitSlash (c ++ slashC :: t) = c :: splitSlash t := by
  induction c with
  | nil =>
      rw [List.nil_append, splitSlash, if_pos rfl]
  | cons x rest ih =>
      rw [List.cons_append, splitSlash,
        if_neg (by intro hx; subst hx; exact h (List.mem_cons_self _ _)),
        ih (fun hm => h (List.mem_cons_of_mem _ hm))]

theorem splitSlash_joinSlash :
    ∀ (comps : List (List Char)), comps ≠ [] → (∀ c ∈ comps, slashC ∉ c) →
      splitSlash (joinSlash comps) = comps := by
  intro comps
  induction comps with
  | nil => intro h _; exact absurd rfl h
  | cons c cs ih =>
      intro _ hns
      cases cs with
      | nil =>
          rw [joinSlash]
          exact splitSlash_no_slash c (hns c (List.mem_cons_self _ _))
      | cons c2 cs2 =>
          rw [joinSlash, splitSlash_append c _ (hns c (List.mem_cons_self _ _)),
            ih (by simp) (fun d hd => hns d (List.mem_cons_of_mem _ hd))]

theorem segToks_lit_mem {c : Char} {sg : List Atom} (h : Atom.lit c ∈ sg) :
    Tok.lit c ∈ segToks sg := by
  induction sg with
  | nil => simp at h
  | cons a rest ih =>
      cases a with
      | lit d =>
          rw [segToks]
          rcases List.mem_cons.mp h with h1 | h1
          · injection h1 with h2
            subst h2
            exact List.mem_cons_self _ _
          · exact List.mem_cons_of_mem _ (ih h1)
      | field m =>
          rw [segToks]
          rcases List.mem_cons.mp h with h1 | h1
          · exact absurd h1 (by simp)
          · exact List.mem_cons_of_mem _ (ih h1)

theorem flat_tok_mem {t : Tok} {sg : List Atom} {segs : List (List Atom)}
    (hsg : sg ∈ segs) (ht : t ∈ segToks sg) : t ∈ flatSegsToks segs := by
  induction segs with
  | nil => simp at hsg
  | cons s rest ih =>
      rw [flatSegsToks]
      rcases List.mem_cons.mp hsg with h1 | h1
      · subst h1
        exact List.mem_append_left _ ht
      · exact List.mem_append_right _ (List.mem_cons_of_mem _ (ih h1))

theorem simpTok_lit_ne_slash :
    ∀ (cs : List Char) (fld : Bool) (buf : List Char) (toks : List Tok),
      simpTok fld buf cs = .ok toks → ∀ c : Char, Tok.lit c ∈ toks → c ≠ slashC := by
  intro cs
  induction cs with
  | nil =>
      intro fld buf toks hok c hc
      cases fld with
      | false =>
          rw [simpTok] at hok
          simp only [Except.ok.injEq] at hok
          subst hok
          simp at hc
      | true =>
          rw [simpTok] at hok
          exact Except.noConfusion hok
  | cons ch rest ih =>
      intro fld buf toks hok c hc
      cases fld with
      | true =>
          by_cases hcb : ch = cbrace
          · subst hcb
            rw [simpTok, if_pos rfl] at hok
            cases hX : simpTok false [] rest with
            | error e => rw [hX] at hok; exact Except.noConfusion hok
            | ok ts =>
                rw [hX] at hok
                simp only [Except.map, Except.ok.injEq] at hok
                subst hok
                rcases List.mem_cons.mp hc with h1 | h1
                · exact absurd h1 (by simp)
                · exact ih false [] ts hX c h1
          · rw [simpTok, if_neg hcb] at hok
            exact ih true (buf ++ [ch]) toks hok c hc
      | false =>
          by_cases hsl : ch = slashC
          · subst hsl
            rw [simpTok, if_pos rfl] at hok
            cases hX : simpTok false [] rest with
            | error e => rw [hX] at hok; exact Except.noConfusion hok
            | ok ts =>
                rw [hX] at hok
                simp only [Except.map, Except.ok.injEq] at hok
                subst hok
                rcases List.mem_cons.mp hc with h1 | h1
                · exact absurd h1 (by simp)
                · exact ih false [] ts hX c h1
          · by_cases hob : ch = obrace
            · subst hob
              rw [simpTok, if_neg hsl, if_pos rfl] at hok
              exact ih true [] toks hok c hc
            · by_cases hcb : ch = cbrace
              · subst hcb
                rw [simpTok, if_neg hsl, if_neg (by decide), if_pos rfl] at hok
                exact Except.noConfusion hok
              · rw [simpTok, if_neg hsl, if_neg hob, if_neg hcb] at hok
                cases hX : simpTok false [] rest with
                | error e => rw [hX] at hok; exact Except.noConfusion hok
                | ok ts =>
                    rw [hX] at hok
                    simp only [Except.map, Except.ok.injEq] at hok
                    subst hok
                    rcases List.mem_cons.mp hc with h1 | h1
                    · injection h1 with h2
                      subst h2
                      exact hsl
                    · exact ih false [] ts hX c h1

theorem segToks_prop_mem {n : String} {sg : List Atom} (h : Tok.prop n ∈ segToks sg) :
    n ∈ segFields sg := by
  induction sg with
  | nil => simp [segToks] at h
  | cons a rest ih =>
      cases a with
      | lit d =>
          rw [segToks] at h
          rcases List.mem_cons.mp h with h1 | h1
          · exact absurd h1 (by simp)
          · rw [segFields]; exact ih h1
      | field m =>
          rw [segToks] at h
          rcases List.mem_cons.mp h with h1 | h1
          · injection h1 with h2
            subst h2
            rw [segFields]
            exact List.mem_cons_self _ _
          · rw [segFields]
            exact List.mem_cons_of_mem _ (ih h1)

theorem flat_prop_mem {n : String} {segs : List (List Atom)}
    (h : Tok.prop n ∈ flatSegsToks segs) : n ∈ propsOf segs := by
  induction segs with
  | nil => simp [flatSegsToks] at h
  | cons sg rest ih =>
      rw [flatSegsToks] at h
      have hp : propsOf (sg :: rest) = segFields sg ++ propsOf rest := by
        simp [propsOf]
      rw [hp]
      rcases List.mem_append.mp h with h1 | h1
      · exact List.mem_append_left _ (segToks_prop_mem h1)
      · rcases List.mem_cons.mp h1 with h2 | h2
        · exact absurd h2 (by simp)
        · exact List.mem_append_right _ (ih h2)

theorem parseToks_inv :
    ∀ (toks Y : List Tok) (cur : List Atom) (segsA : List (List Atom))
      (propsA : List String) (segs : List (List Atom)) (props : List String),
      toks = Y ++ [Tok.sep] →
      parseToks toks cur segsA propsA = .ok (segs, props) →
      ∃ head rest, segs = segsA ++ (cur ++ head) :: rest ∧
        toks = segToks head ++ (Tok.sep :: flatSegsToks rest) ∧
        props = propsA ++ segFields head ++ propsOf rest := by
  intro toks
  induction toks with
  | nil =>
      intro Y cur segsA propsA segs props hY _
      exact absurd hY.symm (by simp)
  | cons t toks ih =>
      intro Y cur segsA propsA segs props hY hok
      cases t with
      | sep =>
          rw [parseToks] at hok
          by_cases hcur : cur = []
          · rw [if_pos hcur] at hok
            exact Except.noConfusion hok
          · rw [if_neg hcur] at hok
            cases Y with
            | nil =>
                rw [List.nil_append] at hY
                have htoks : toks = [] := by injection hY
                subst htoks
                rw [parseToks] at hok
                simp only [Except.ok.injEq, Prod.mk.injEq] at hok
                obtain ⟨hs, hp⟩ := hok
                refine ⟨[], [], ?_, ?_, ?_⟩
                · rw [← hs]; simp
                · simp [segToks, flatSegsToks]
                · rw [← hp]; simp [segFields, propsOf]
            | cons y Y2 =>
                rw [List.cons_append] at hY
                have h1 : toks = Y2 ++ [Tok.sep] := by injection hY
                obtain ⟨head, rest, hs, ht, hp⟩ :=
                  ih Y2 [] (segsA ++ [cur]) propsA segs props h1 hok
                refine ⟨[], head :: rest, ?_, ?_, ?_⟩
                · rw [hs]; simp
                · rw [ht]; simp [segToks, flatSegsToks]
                · rw [hp]; simp [segFields, propsOf]
      | prop n =>
          rw [parseToks] at hok
          by_cases hid : isidentifier n = false
          · rw [if_pos hid] at hok
            exact Except.noConfusion hok
          · rw [if_neg hid] at hok
            by_cases hdup : propsA.contains n = true
            · rw [if_pos hdup] at hok
              exact Except.noConfusion hok
            · rw [if_neg hdup] at hok
              cases Y with
              | nil =>
                  rw [List.nil_append] at hY
                  injection hY with h1 _
                  exact Tok.noConfusion h1
              | cons y Y2 =>
                  rw [List.cons_append] at hY
                  have h1 : toks = Y2 ++ [Tok.sep] := by injection hY
                  obtain ⟨head, rest, hs, ht, hp⟩ :=
                    ih Y2 (cur ++ [Atom.field n]) segsA (propsA ++ [n]) segs props h1 hok
                  refine ⟨Atom.field n :: head, rest, ?_, ?_, ?_⟩
                  · rw [hs]; simp
                  · rw [segToks, List.cons_append, ht]
                  · rw [hp]; simp [segFields]
      | lit ch =>
          rw [parseToks] at hok
          cases Y with
          | nil =>
              rw [List.nil_append] at hY
              injection hY with h1 _
              exact Tok.noConfusion h1
          | cons y Y2 =>
              rw [List.cons_append] at hY
              have h1 : toks = Y2 ++ [Tok.sep] := by injection hY
              obtain ⟨head, rest, hs, ht, hp⟩ :=
                ih Y2 (cur ++ [Atom.lit ch]) segsA propsA segs props h1 hok
              refine ⟨Atom.lit ch :: head, rest, ?_, ?_, ?_⟩
              · rw [hs]; simp
              · rw [segToks, List.cons_append, ht]
              · rw [hp]; simp [segFields]

theorem segFields_nil_lits (sg : List Atom) (h : segFields sg = []) :
    sg = (litsOf sg).map Atom.lit := by
  induction sg with
  | nil => rfl
  | cons a rest ih =>
      cases a with
      | lit c =>
          rw [segFields] at h
          rw [litsOf, List.map_cons, ← ih h]
      | field n =>
          rw [segFields] at h
          exact absurd h (by simp)

theorem substSeg_lits (v : String → String) (L : List Char) :
    substSeg v (L.map Atom.lit) = L := by
  induction L with
  | nil => rfl
  | cons c rest ih => rw [List.map_cons, substSeg, ih]

theorem substSeg_no_slash (v : String → String) (sg : List Atom)
    (hl : ∀ c, Atom.lit c ∈ sg → c ≠ slashC)
    (hv1 : ∀ n, slashC ∉ (v n).data) : slashC ∉ substSeg v sg := by
  induction sg with
  | nil => simp [substSeg]
  | cons a rest ih =>
      cases a with
      | lit c =>
          rw [substSeg]
          intro hmem
          rcases List.mem_cons.mp hmem with h2 | h2
          · exact hl c (List.mem_cons_self _ _) h2.symm
          · exact ih (fun d hd => hl d (List.mem_cons_of_mem _ hd)) h2
      | field m =>
          rw [substSeg]
          intro hmem
          rcases List.mem_append.mp hmem with h2 | h2
          · exact hv1 m h2
          · exact ih (fun d hd => hl d (List.mem_cons_of_mem _ hd)) h2

theorem tryLen_exact (n : String) (L x : List Char) (hnl : nl ∉ x) :
    ∀ k : Nat, x.length ≤ k →
      tryLen n (x ++ L) (fun t => matchAtoms (L.map Atom.lit) t) k =
        some [(n, ⟨x⟩)] := by
  have hall : (x.all (fun c => c ≠ nl)) = true := by
    simp only [List.all_eq_true, decide_eq_true_eq]
    intro c hc he
    exact hnl (he ▸ hc)
  intro k
  induction k with
  | zero =>
      intro hk
      have hx : x = [] := List.length_eq_zero.mp (Nat.le_zero.mp hk)
      subst hx
      rw [tryLen, List.nil_append]
      simp [matchAtoms_lits]
  | succ k ih =>
      intro hk
      by_cases hL : L = []
      · subst hL
        have htake : x.take (k+1) = x := List.take_of_length_le hk
        have hdrop : x.drop (k+1) = [] := List.drop_eq_nil_of_le hk
        rw [List.append_nil, tryLen, htake, hdrop, if_pos hall]
        simp [matchAtoms]
      · by_cases hx : x.length = k + 1
        · have htake : (x ++ L).take (k+1) = x := by
            rw [← hx]; exact List.take_left _ _
          have hdrop : (x ++ L).drop (k+1) = L := by
            rw [← hx]; exact List.drop_left _ _
          rw [tryLen, htake, hdrop, if_pos hall]
          simp [matchAtoms_lits]
        · have hxk : x.length ≤ k := Nat.lt_succ_iff.mp (Nat.lt_of_le_of_ne hk hx)
          have hfail : matchAtoms (L.map Atom.lit) ((x ++ L).drop (k+1)) = none := by
            rw [matchAtoms_lits]
            have hlen : ((x ++ L).drop (k+1)).length < L.length := by
              rw [List.length_drop, List.length_append]
              have hL1 : 1 ≤ L.length := List.length_pos.mpr hL
              omega
            rw [if_neg]
            intro hcon
            rcases hcon with hcon | hcon
            · rw [hcon] at hlen
              exact Nat.lt_irrefl _ hlen
            · rw [hcon, List.length_append] at hlen
              simp at hlen
          rw [tryLen]
          by_cases hg : (((x ++ L).take (k+1)).all (fun c => c ≠ nl)) = true
          · rw [if_pos hg]
            simp only [hfail, Option.map_none']
            exact ih hxk
          · rw [if_neg hg]
            exact ih hxk

theorem matchSeg_single_field (v : String → String)
    (hv : ∀ n, nl ∉ (v n).data) :
    ∀ sg : List Atom, (segFields sg).length ≤ 1 →
      matchAtoms sg (substSeg v sg) =
        some ((segFields sg).map (fun n => (n, v n))) := by
  intro sg
  induction sg with
  | nil => intro _; simp [substSeg, matchAtoms, segFields]
  | cons a rest ih =>
      cases a with
      | lit c =>
          intro h1
          rw [segFields] at h1
          rw [substSeg, matchAtoms, if_pos rfl]
          exact ih h1
      | field m =>
          intro h1
          have hrest : segFields rest = [] := by
            rw [segFields, List.length_cons] at h1
            have h2 : (segFields rest).length = 0 := by omega
            exact List.length_eq_zero.mp h2
          have hlits := segFields_nil_lits rest hrest
          rw [substSeg, matchAtoms]
          have hsub : substSeg v rest = litsOf rest := by
            rw [hlits, substSeg_lits]
            rw [← hlits]
          have hmatch : (fun t => matchAtoms rest t) =
              (fun t => matchAtoms ((litsOf rest).map Atom.lit) t) := by
            funext t
            rw [← hlits]
          rw [hsub, hmatch]
          rw [tryLen_exact m (litsOf rest) (v m).data (hv m) _
            (by rw [List.length_append]; exact Nat.le_add_right _ _)]
          rw [segFields, hrest]
          rfl

theorem matchComponents_map (v : String → String) :
    ∀ segs : List (List Atom),
      (∀ sg ∈ segs, matchAtoms sg (substSeg v sg) =
        some ((segFields sg).map (fun n => (n, v n)))) →
      matchComponents segs (segs.map (substSeg v)) =
        some ((propsOf segs).map (fun n => (n, v n))) := by
  intro segs
  induction segs with
  | nil => intro _; rfl
  | cons sg rest ih =>
      intro hall
      rw [List.map_cons, matchComponents]
      rw [hall sg (List.mem_cons_self _ _)]
      rw [ih (fun s hs => hall s (List.mem_cons_of_mem _ hs))]
      simp [propsOf]

/-! ## Claim theorems -/

/-- C10: for every argument combination, calling register on a constructed
Filesystem raises TypeError: the property set is fixed at construction and
no extra property can be added. -/
theorem register_always_raises (name : String) (kwargs : List (String × String)) :
    registerModel name kwargs = Except.error Err.typeError := rfl

/-- C6: compiling the pattern with fields year, month and day yields
exactly two segment matchers and exactly the three distinct field names
year, month, day in declaration order, while the pattern repeating the
field a fails with the duplicate-name error. -/
theorem parse_example_and_duplicate :
    parsePattern "\x7byear\x7d/\x7bmonth\x7d-\x7bday\x7d.txt".data =
      Except.ok ([[Atom.field "year"],
                  [Atom.field "month", Atom.lit '-', Atom.field "day",
                   Atom.lit '.', Atom.lit 't', Atom.lit 'x', Atom.lit 't']],
                 ["year", "month", "day"]) ∧
    ([[Atom.field "year"],
      [Atom.field "month", Atom.lit '-', Atom.field "day",
       Atom.lit '.', Atom.lit 't', Atom.lit 'x', Atom.lit 't']] : List (List Atom)).length = 2 ∧
    (["year", "month", "day"] : List String).length = 3 ∧
    (["year", "month", "day"] : List String).Nodup ∧
    parsePattern "\x7ba\x7d/\x7ba\x7d.txt".data = Except.error (Err.duplicateProp "a") := by
  decide

/-- C9: a deferred content accessor reads the underlying file at most once:
while no content is cached, a call reads the whole file, raw bytes without
a configured encoding and text decoded with it otherwise, and caches the
value; once a content is cached, every call returns it and leaves the
state unchanged, whatever the filesystem now contains (no re-read). -/
theorem reader_reads_at_most_once (files files2 : List (String × List Nat))
    (r : LazyFileReader) (bs : List Nat) :
    (∀ c, r.content = some c → readerCall files2 r = some (c, r)) ∧
    (r.content = none → getFile files r.filename = some bs →
      readerCall files r =
        some (encodeData r.encoding bs,
              ⟨r.filename, r.encoding, some (encodeData r.encoding bs)⟩) ∧
      ∀ files3 : List (String × List Nat),
        readerCall files3 ⟨r.filename, r.encoding, some (encodeData r.encoding bs)⟩ =
          some (encodeData r.encoding bs,
                ⟨r.filename, r.encoding, some (encodeData r.encoding bs)⟩)) := by
  constructor
  · intro c hc
    rw [readerCall, hc]
  · intro hc hg
    constructor
    · rw [readerCall, hc, hg]
      cases r.encoding <;> rfl
    · intro files3
      rw [readerCall]

/-- C9 witness: a cached reader answers from its cache, and a fresh reader
with a configured encoding reads, decodes and caches once. -/
theorem reader_reads_at_most_once_witness :
    readerCall [] ⟨"f", none, some (FileData.bytes [2])⟩ =
      some (FileData.bytes [2], ⟨"f", none, some (FileData.bytes [2])⟩) ∧
    (readerCall [("f", [1])] ⟨"f", some "utf-8", none⟩ =
      some (encodeData (some "utf-8") [1],
            ⟨"f", some "utf-8", some (encodeData (some "utf-8") [1])⟩) ∧
     ∀ files3 : List (String × List Nat),
       readerCall files3 ⟨"f", some "utf-8", some (encodeData (some "utf-8") [1])⟩ =
         some (encodeData (some "utf-8") [1],
               ⟨"f", some "utf-8", some (encodeData (some "utf-8") [1])⟩)) :=
  ⟨(reader_reads_at_most_once [] [] ⟨"f", none, some (FileData.bytes [2])⟩ []).1
      (FileData.bytes [2]) rfl,
   (reader_reads_at_most_once [("f", [1])] [] ⟨"f", some "utf-8", none⟩ [1]).2 rfl rfl⟩

/-- C8: when some identity value contains the path separator, deriving the
relative name raises ValueError and save returns the same error with the
filesystem state unchanged: the error is raised while deriving the name,
before any directory creation or write. -/
theorem save_slash_value_no_mutation (root : String) (idProps : List String)
    (pattern : List Char) (v : String → String) (content : List Nat) (fs : FlatFs)
    (n : String) (hn : n ∈ idProps) (hs : slashC ∈ (v n).data) :
    itemFilename idProps pattern v = Except.error Err.slashInValue ∧
    saveModel root idProps pattern v content fs = (Except.error Err.slashInValue, fs) := by
  have hany : (idProps.any (fun m => (v m).data.contains slashC)) = true := by
    rw [List.any_eq_true]
    exact ⟨n, hn, by simpa using hs⟩
  have h1 : itemFilename idProps pattern v = Except.error Err.slashInValue := by
    rw [itemFilename, if_pos hany]
  refine ⟨h1, ?_⟩
  rw [saveModel, itemFullFilename, h1]
  rfl

/-- C8 witness: the value x/y for the identity field a aborts derivation
and save without mutating the state. -/
theorem save_slash_value_no_mutation_witness :
    itemFilename ["a"] "\x7ba\x7d.txt".data (fun _ => "x/y") =
      Except.error Err.slashInValue ∧
    saveModel "/data" ["a"] "\x7ba\x7d.txt".data (fun _ => "x/y") [9] ⟨[], []⟩ =
      (Except.error Err.slashInValue, ⟨[], []⟩) :=
  save_slash_value_no_mutation "/data" ["a"] "\x7ba\x7d.txt".data (fun _ => "x/y")
    [9] ⟨[], []⟩ "a" (by decide) (by decide)

/-- C3 counterexample: with root /data and pattern a-field over f.txt, the
value ".." passes the containment check (the derived name string starts
with the root) and save succeeds, writing to the resolved location /f.txt
which does not lie under the root: the operation is neither failed nor
clamped, so escape via ".." is not prevented. -/
theorem save_dotdot_escapes_root :
    itemFullFilename "/data" ["a"] "\x7ba\x7d/f.txt".data (fun _ => "..") =
      Except.ok "/data/../f.txt" ∧
    liesUnder "/data" "/data/../f.txt" = false ∧
    saveModel "/data" ["a"] "\x7ba\x7d/f.txt".data (fun _ => "..") [9] ⟨[], []⟩ =
      (Except.ok (), ⟨["/"], [("/f.txt", [9])]⟩) ∧
    liesUnder "/data" "/f.txt" = false := by
  decide

/-- C3 amended: the containment check of save and delete is a string-prefix
test on the derived full name: whenever that name does not start with the
configured root string, the operation fails with the assertion error and
the state is returned unchanged, never silently clamped.  A ".." component
passes the prefix test, so escape via ".." is not prevented by it. -/
theorem root_check_aborts_without_mutation (root full : String) (content : List Nat)
    (fs : FlatFs) (parts : List String) (ch : List (String × Entry))
    (h1 : strStarts full root = false)
    (h2 : strStarts (pjoin root parts) root = false) :
    saveAt root full content fs = (Except.error Err.assertFailed, fs) ∧
    deleteAt root parts ch = (Except.error Err.assertFailed, ch) := by
  constructor
  · rw [saveAt, if_pos h1]
  · rw [deleteAt, if_pos h2]

/-- C3 amended witness: a full name outside the root and a part resetting
the join both abort without mutation. -/
theorem root_check_aborts_without_mutation_witness :
    saveAt "/data" "/other/f" [9] ⟨[], []⟩ = (Except.error Err.assertFailed, ⟨[], []⟩) ∧
    deleteAt "/data" ["/other"] [] = (Except.error Err.assertFailed, []) :=
  root_check_aborts_without_mutation "/data" "/other/f" [9] ⟨[], []⟩ ["/other"] []
    (by decide) (by decide)

/-- C7 counterexample: the compiled matcher for the single literal segment
"a" accepts the component "a" followed by a newline although only its
proper substring "a" is matched (the regex dollar anchor also matches just
before a trailing newline), so acceptance is not only by full-component
matches. -/
theorem anchored_trailing_newline_counterexample :
    matchAtoms [Atom.lit 'a'] ['a', nl] = some [] ∧
    reconAtoms [Atom.lit 'a'] [] = ['a'] ∧
    (['a'] : List Char) ≠ ['a', nl] := by
  decide

/-- C7 amended: every compiled segment matcher is anchored up to the
trailing-newline allowance of the dollar anchor: whenever it accepts a
component, the text it consumed (the captures substituted back into the
segment) is the whole component or the whole component minus one final
newline; no other proper substring can be matched. -/
theorem matcher_anchored_up_to_newline (atoms : List Atom) (s : List Char) (caps : Caps)
    (h : matchAtoms atoms s = some caps) :
    reconAtoms atoms caps = s ∨ reconAtoms atoms caps ++ [nl] = s :=
  matchAtoms_anchored_aux atoms s caps h

/-- C7 amended witness: the matcher for segment a-field-b consumes the
whole component it accepts, up to the newline allowance. -/
theorem matcher_anchored_up_to_newline_witness :
    reconAtoms [Atom.lit 'a', Atom.field "x", Atom.lit 'b']
        [("x", "cd")] = "acdb".data ∨
    reconAtoms [Atom.lit 'a', Atom.field "x", Atom.lit 'b']
        [("x", "cd")] ++ [nl] = "acdb".data :=
  matcher_anchored_up_to_newline [Atom.lit 'a', Atom.field "x", Atom.lit 'b']
    "acdb".data [("x", "cd")] (by decide)

/-- C2: delete removes the record's file and then performs exactly the
upward walk over the ancestor chain from the file's immediate parent
toward, but excluding, the configured root: each directory that is empty
is removed and the walk continues to its parent, and the first non-empty
directory stops it.  The chain never contains the root (the empty relative
path), and for a file directly under the root nothing besides the file is
removed, even if the root becomes empty. -/
theorem delete_cleans_empty_ancestors (ch : List (String × Entry)) (parts : List String) :
    deleteModel ch parts =
      (removeFileAt ch parts).bind (fun c1 => walkUpward c1 (ancestorChain parts)) ∧
    [] ∉ ancestorChain parts ∧
    (parts.length ≤ 1 → deleteModel ch parts = removeFileAt ch parts) := by
  refine ⟨?_, ?_, ?_⟩
  · rw [deleteModel]
    congr 1
    funext c1
    rw [cleanupRev_eq_walkUpward, ancestorChain_eq]
  · intro hmem
    rw [ancestorChain, List.mem_map] at hmem
    obtain ⟨k, hk, htake⟩ := hmem
    rcases List.take_eq_nil_iff.mp htake with h | h
    · exact Nat.succ_ne_zero k h
    · rw [h] at hk
      simp at hk
  · intro hlen
    have hdl : parts.dropLast = [] := by
      cases parts with
      | nil => rfl
      | cons a t =>
          cases t with
          | nil => rfl
          | cons b t2 => simp at hlen
    rw [deleteModel, hdl]
    cases removeFileAt ch parts <;> rfl

/-- C2 witness: for a file directly under the root, delete removes only the
file and the chain excludes the root. -/
theorem delete_cleans_empty_ancestors_witness :
    deleteModel [("f.txt", Entry.file [1])] ["f.txt"] =
      removeFileAt [("f.txt", Entry.file [1])] ["f.txt"] ∧
    [] ∉ ancestorChain ["f.txt"] :=
  ⟨(delete_cleans_empty_ancestors [("f.txt", Entry.file [1])] ["f.txt"]).2.2 (by decide),
   (delete_cleans_empty_ancestors [("f.txt", Entry.file [1])] ["f.txt"]).2.1⟩

/-- C5: during the walk, an entry whose name does not match the segment
matcher of the current depth is skipped silently; at leaf depth (number of
segments minus one) a matching entry is yielded exactly when it is a
regular file, with the captures of all matchers down to this depth merged
into its values, and a directory there is skipped; below leaf depth a
matching entry is descended into exactly when it is a directory, and a
file there is skipped. -/
theorem walk_depth_behavior (segs : List (List Atom)) (pathParts : List String)
    (prev : Caps) (name : String) (rest : List (String × Entry)) :
    (∀ e, matchPart segs pathParts.length name = none →
      walkList segs pathParts prev ((name, e) :: rest) =
        walkList segs pathParts prev rest) ∧
    (∀ nv c, matchPart segs pathParts.length name = some nv →
      pathParts.length = segs.length - 1 →
      walkList segs pathParts prev ((name, Entry.file c) :: rest) =
        ⟨prev ++ nv, pathParts ++ [name]⟩ :: walkList segs pathParts prev rest) ∧
    (∀ nv ch2, matchPart segs pathParts.length name = some nv →
      pathParts.length = segs.length - 1 →
      walkList segs pathParts prev ((name, Entry.dir ch2) :: rest) =
        walkList segs pathParts prev rest) ∧
    (∀ nv ch2, matchPart segs pathParts.length name = some nv →
      pathParts.length ≠ segs.length - 1 →
      walkList segs pathParts prev ((name, Entry.dir ch2) :: rest) =
        walkList segs (pathParts ++ [name]) (prev ++ nv) ch2 ++
          walkList segs pathParts prev rest) ∧
    (∀ nv c, matchPart segs pathParts.length name = some nv →
      pathParts.length ≠ segs.length - 1 →
      walkList segs pathParts prev ((name, Entry.file c) :: rest) =
        walkList segs pathParts prev rest) := by
  refine ⟨?_, ?_, ?_, ?_, ?_⟩
  · intro e h
    simp only [walkList, h, List.nil_append]
  · intro nv c h hleaf
    simp only [walkList, h, if_pos hleaf, List.singleton_append]
  · intro nv ch2 h hleaf
    simp only [walkList, h, if_pos hleaf, List.nil_append]
  · intro nv ch2 h hleaf
    simp only [walkList, h, if_neg hleaf]
  · intro nv c h hleaf
    simp only [walkList, h, if_neg hleaf, List.nil_append]

/-- C5 witness: with segments literal a then field x, a non-matching name
is skipped, a leaf directory is skipped and a leaf file is yielded with
merged values, a branch file is skipped and a branch directory is
descended into. -/
theorem walk_depth_behavior_witness :
    walkList [[Atom.lit 'a'], [Atom.field "x"]] [] [] [("b", Entry.file [1])] =
      walkList [[Atom.lit 'a'], [Atom.field "x"]] [] [] [] ∧
    walkList [[Atom.lit 'a'], [Atom.field "x"]] ["a"] [] [("c", Entry.file [1])] =
      ⟨[("x", "c")], ["a", "c"]⟩ ::
        walkList [[Atom.lit 'a'], [Atom.field "x"]] ["a"] [] [] ∧
    walkList [[Atom.lit 'a'], [Atom.field "x"]] ["a"] [] [("c", Entry.dir [])] =
      walkList [[Atom.lit 'a'], [Atom.field "x"]] ["a"] [] [] ∧
    walkList [[Atom.lit 'a'], [Atom.field "x"]] [] [] [("a", Entry.dir [])] =
      walkList [[Atom.lit 'a'], [Atom.field "x"]] ["a"] [] [] ++
        walkList [[Atom.lit 'a'], [Atom.field "x"]] [] [] [] ∧
    walkList [[Atom.lit 'a'], [Atom.field "x"]] [] [] [("a", Entry.file [1])] =
      walkList [[Atom.lit 'a'], [Atom.field "x"]] [] [] [] :=
  ⟨(walk_depth_behavior _ [] [] "b" []).1 (Entry.file [1]) (by decide),
   by
     have h := (walk_depth_behavior [[Atom.lit 'a'], [Atom.field "x"]] ["a"] [] "c" []).2.1
       [("x", "c")] [1] (by decide) (by decide)
     simpa using h,
   (walk_depth_behavior _ ["a"] [] "c" []).2.2.1 [("x", "c")] [] (by decide) (by decide),
   by
     have h := (walk_depth_behavior [[Atom.lit 'a'], [Atom.field "x"]] [] [] "a" []).2.2.2.1
       [] [] (by decide) (by decide)
     simpa using h,
   (walk_depth_behavior _ [] [] "a" []).2.2.2.2 [] [1] (by decide) (by decide)⟩

/-- C1 amended: for every valid pattern without doubled-brace escapes whose
segments each contain at most one field, and every field-value set with
values free of slashes and newlines, deriving the relative path (the
string formatting of FilesystemItem.filename, after its slash check) and
matching each resulting path component with the corresponding compiled
segment matcher succeeds and yields back exactly the original field-value
set, as the pairs of the property names with their values in declaration
order. -/
theorem roundtrip_single_field (p : List Char) (segs : List (List Atom))
    (props : List String) (v : String → String)
    (hp : parsePattern p = Except.ok (segs, props))
    (hnd : noDoubles p = true)
    (h1 : ∀ sg ∈ segs, (segFields sg).length ≤ 1)
    (hv : ∀ n, slashC ∉ (v n).data ∧ nl ∉ (v n).data) :
    ∃ rel, itemFilename props p v = Except.ok rel ∧
      matchComponents segs (splitSlash rel) =
        some (props.map (fun n => (n, v n))) := by
  rw [parsePattern] at hp
  cases htok : tokenizePattern p with
  | error e => rw [htok] at hp; exact Except.noConfusion hp
  | ok toksAll =>
      rw [htok] at hp
      have hp2 : parseToks toksAll [] [] [] = Except.ok (segs, props) := hp
      have hts := tokStep_eq_simpTok p false none [] hnd
      rw [tokenizePattern, hts] at htok
      cases hT : simpTok false [] p with
      | error e => rw [hT] at htok; exact Except.noConfusion htok
      | ok T =>
          rw [hT] at htok
          simp only [Except.map, Except.ok.injEq] at htok
          obtain ⟨head, rest, hs, ht, hpr⟩ :=
            parseToks_inv toksAll T [] [] [] segs props htok.symm hp2
          have hsegs : segs = head :: rest := by simpa using hs
          have hflat : T ++ [Tok.sep] = flatSegsToks segs := by
            rw [hsegs, flatSegsToks, htok]
            exact ht
          have hprops : props = propsOf segs := by
            rw [hpr, hsegs]
            simp [propsOf]
          have hw : ∀ n, Tok.prop n ∈ T →
              (fun m => if props.contains m then some (v m) else none) n = some (v n) := by
            intro n hnT
            have hmem : n ∈ props := by
              rw [hprops]
              refine flat_prop_mem ?_
              rw [← hflat]
              exact List.mem_append_left _ hnT
            have hc : props.contains n = true := List.elem_eq_true_of_mem hmem
            simp only [hc, if_pos]
          have hfmt := fmtScan_eq_subst p false []
            (fun m => if props.contains m then some (v m) else none) v T hnd hT hw
          have hslash : (props.any (fun m => (v m).data.contains slashC)) = false := by
            refine List.any_eq_false.mpr ?_
            intro m _
            intro hcon
            exact (hv m).1 (List.mem_of_elem_eq_true hcon)
          have hfile : itemFilename props p v = Except.ok (substToks v T) := by
            rw [itemFilename, if_neg (by rw [hslash]; exact Bool.false_ne_true)]
            exact hfmt
          refine ⟨substToks v T, hfile, ?_⟩
          have hsubst : substToks v T = joinSlash (segs.map (substSeg v)) :=
            subst_flat v segs T hflat
          have hlitne : ∀ sg ∈ segs, ∀ c : Char, Atom.lit c ∈ sg → c ≠ slashC := by
            intro sg hsg c hc
            refine simpTok_lit_ne_slash p false [] T hT c ?_
            have hmem2 : Tok.lit c ∈ flatSegsToks segs :=
              flat_tok_mem hsg (segToks_lit_mem hc)
            rw [← hflat] at hmem2
            rcases List.mem_append.mp hmem2 with h2 | h2
            · exact h2
            · simp at h2
          have hcomp_ns : ∀ comp ∈ segs.map (substSeg v), slashC ∉ comp := by
            intro comp hcm
            rw [List.mem_map] at hcm
            obtain ⟨sg, hsg, heq⟩ := hcm
            rw [← heq]
            exact substSeg_no_slash v sg (hlitne sg hsg) (fun n => (hv n).1)
          rw [hsubst, splitSlash_joinSlash _ (by rw [hsegs]; simp) hcomp_ns]
          rw [matchComponents_map v segs
            (fun sg hsg => matchSeg_single_field v (fun n => (hv n).2) sg (h1 sg hsg))]
          rw [hprops]

/-- C1 amended witness: the single-field-per-segment pattern with fields
year and day round-trips the concrete values 2024 and 03. -/
theorem roundtrip_single_field_witness :
    ∃ rel, itemFilename ["year", "day"] "\x7byear\x7d/\x7bday\x7d.txt".data
        (fun n => if n = "year" then "2024" else if n = "day" then "03" else "") =
          Except.ok rel ∧
      matchComponents [[Atom.field "year"],
          [Atom.field "day", Atom.lit '.', Atom.lit 't', Atom.lit 'x', Atom.lit 't']]
        (splitSlash rel) =
        some ((["year", "day"] : List String).map
          (fun n => (n, (fun m => if m = "year" then "2024"
            else if m = "day" then "03" else "") n))) :=
  roundtrip_single_field "\x7byear\x7d/\x7bday\x7d.txt".data
    [[Atom.field "year"],
     [Atom.field "day", Atom.lit '.', Atom.lit 't', Atom.lit 'x', Atom.lit 't']]
    ["year", "day"]
    (fun n => if n = "year" then "2024" else if n = "day" then "03" else "")
    (by decide) (by decide) (by decide)
    (by
      intro n
      dsimp only
      by_cases h1 : n = "year"
      · rw [if_pos h1]
        decide
      · rw [if_neg h1]
        by_cases h2 : n = "day"
        · rw [if_pos h2]
          decide
        · rw [if_neg h2]
          decide)

/-- C4 counterexample: after a doubled opening brace an immediately
following single opening brace does not open a field: tokenizing the
pattern of three opening braces, x and a closing brace fails with the
single-brace error instead of producing a literal brace and the field x.
Moreover the first segment matcher of the doubled-brace example pattern
does not match exactly the literal text: it also accepts that text
followed by a newline. -/
theorem doubled_brace_counterexample :
    tokenizePattern [obrace, obrace, obrace, 'x', cbrace] = Except.error Err.singleBrace ∧
    parsePattern "a\x7b\x7bb\x7d\x7dc/\x7bx\x7d".data =
      Except.ok ([[Atom.lit 'a', Atom.lit obrace, Atom.lit 'b', Atom.lit cbrace, Atom.lit 'c'],
                  [Atom.field "x"]], ["x"]) ∧
    matchAtoms [Atom.lit 'a', Atom.lit obrace, Atom.lit 'b', Atom.lit cbrace, Atom.lit 'c']
      ['a', obrace, 'b', cbrace, 'c', nl] = some [] ∧
    (['a', obrace, 'b', cbrace, 'c', nl] : List Char) ≠ ['a', obrace, 'b', cbrace, 'c'] := by
  decide

/-- C4 amended: a doubled brace whose second character is not followed by a
third equal brace emits exactly one literal brace and consumes both
characters (brace pairing is greedy, so an opening brace right after a
doubled one is not a field opener); the example pattern compiles so that
its first segment matcher accepts exactly the literal text and that text
followed by one trailing newline. -/
theorem doubled_brace_amended :
    parsePattern "a\x7b\x7bb\x7d\x7dc/\x7bx\x7d".data =
      Except.ok ([[Atom.lit 'a', Atom.lit obrace, Atom.lit 'b', Atom.lit cbrace, Atom.lit 'c'],
                  [Atom.field "x"]], ["x"]) ∧
    (∀ s : List Char,
      matchAtoms [Atom.lit 'a', Atom.lit obrace, Atom.lit 'b', Atom.lit cbrace, Atom.lit 'c'] s =
        if s = ['a', obrace, 'b', cbrace, 'c'] ∨ s = ['a', obrace, 'b', cbrace, 'c'] ++ [nl]
        then some [] else none) ∧
    (∀ (prev : Option Char) (buf rest : List Char) (c : Char),
      (c = obrace ∨ c = cbrace) → rest.head? ≠ some c →
      tokStep prev false buf (c :: c :: rest) =
        (tokStep (some c) false buf rest).map (fun ts => Tok.lit c :: ts)) := by
  refine ⟨by decide, ?_, ?_⟩
  · intro s
    have h := matchAtoms_lits ['a', obrace, 'b', cbrace, 'c'] s
    simpa using h
  · intro prev buf rest c hc hrest
    rcases hc with rfl | rfl
    · rw [tokStep]
      rw [if_neg (by decide), if_pos (by exact ⟨Or.inl rfl, rfl⟩)]
      rw [tokStep]
      rw [if_neg (by decide),
        if_neg (by intro hcon; exact hrest hcon.2),
        if_neg (by decide),
        if_neg (by intro hcon; exact hcon.2 rfl)]
    · rw [tokStep]
      rw [if_neg (by decide), if_pos (by exact ⟨Or.inr rfl, rfl⟩)]
      rw [tokStep]
      rw [if_neg (by decide),
        if_neg (by intro hcon; exact hrest hcon.2),
        if_neg (by intro hcon; exact hcon.2 rfl),
        if_neg (by intro hcon; exact absurd hcon.1 (by decide))]

/-- C4 amended witness: the doubled-brace equation at a concrete input, and
the acceptance of the literal text by the first segment matcher. -/
theorem doubled_brace_amended_witness :
    tokStep none false [] [obrace, obrace, 'z'] =
      (tokStep (some obrace) false [] ['z']).map (fun ts => Tok.lit obrace :: ts) ∧
    matchAtoms [Atom.lit 'a', Atom.lit obrace, Atom.lit 'b', Atom.lit cbrace, Atom.lit 'c']
      ['a', obrace, 'b', cbrace, 'c'] = some [] :=
  ⟨doubled_brace_amended.2.2 none [] ['z'] obrace (Or.inl rfl) (by decide),
   by rw [doubled_brace_amended.2.1 ['a', obrace, 'b', cbrace, 'c'],
        if_pos (Or.inl rfl)]⟩

/-- C1 counterexample: for the month-day pattern and the slash-free values
year 2024, month 03, day 01-02, deriving the relative path and re-matching
its components succeeds but yields month 03-01 and day 02: the greedy
captures break the round trip as soon as one segment holds two fields, so
the derived-then-matched field-value set is not the original one. -/
theorem roundtrip_counterexample :
    parsePattern "\x7byear\x7d/\x7bmonth\x7d-\x7bday\x7d.txt".data =
      Except.ok ([[Atom.field "year"],
                  [Atom.field "month", Atom.lit '-', Atom.field "day",
                   Atom.lit '.', Atom.lit 't', Atom.lit 'x', Atom.lit 't']],
                 ["year", "month", "day"]) ∧
    itemFilename ["year", "month", "day"] "\x7byear\x7d/\x7bmonth\x7d-\x7bday\x7d.txt".data
        (fun n => if n = "year" then "2024" else if n = "month" then "03" else "01-02") =
      Except.ok "2024/03-01-02.txt".data ∧
    matchComponents
        [[Atom.field "year"],
         [Atom.field "month", Atom.lit '-', Atom.field "day",
          Atom.lit '.', Atom.lit 't', Atom.lit 'x', Atom.lit 't']]
        (splitSlash "2024/03-01-02.txt".data) =
      some [("year", "2024"), ("month", "03-01"), ("day", "02")] ∧
    ([("year", "2024"), ("month", "03-01"), ("day", "02")] : Caps) ≠
      [("year", "2024"), ("month", "03"), ("day", "01-02")] ∧
    (∀ n, n ∈ (["year", "month", "day"] : List String) →
      slashC ∉ ((fun n => if n = "year" then "2024" else if n = "month" then "03"
        else "01-02") n).data) := by
  decide

end Multicorn
